import Mathlib

/-!
Verification development for the Young-scientist-scraper repository
(`scrape_social_projects.py`).  The pure core of the script — field
parsing (`parse_project_block`, `parse_counter`), the dedup/aggregation
map, the pagination stop policy of `main`'s while-loop, and the final
group-and-sort view — is shallowly embedded below.  Strings are handled
as `List Char`; Python's `\s`, `str.strip`, `str.split` and
`str.splitlines` are modelled over their ASCII whitespace classes
(`' '`, `'\t'`, `'\n'`, `'\r'`, `'\x0b'`, `'\x0c'`), which covers every
character class the script's regexes and inputs use.  Python regex
`re.search` with the script's concrete patterns (a literal label,
`\s*`, then a greedy `(.+)` or `([0-9]+)`/`(\d+)` group) is embedded
with its leftmost-match and backtracking behaviour made explicit.
-/

namespace Scraper

/-- Python `\s` over ASCII: space, tab, newline, carriage return,
vertical tab, form feed. -/
def isSpace (c : Char) : Bool :=
  c == ' ' || c == '\t' || c == '\n' || c == '\r' || c == '\x0b' || c == '\x0c'

/-- Line-break characters for `str.splitlines` (ASCII).  `"\r\n"` is a
single break in Python; modelling it as two breaks only inserts an empty
line, which the parser filters out anyway. -/
def isBreak (c : Char) : Bool :=
  c == '\n' || c == '\r' || c == '\x0b' || c == '\x0c'

/-- Python `str.strip()`. -/
def pyStrip (l : List Char) : List Char :=
  ((l.dropWhile isSpace).reverse.dropWhile isSpace).reverse

/-- Worker for `str.splitlines`: split at break characters. -/
def splitlinesAux : List Char → List Char → List (List Char)
  | [], acc => [acc.reverse]
  | c :: rest, acc =>
    if isBreak c then acc.reverse :: splitlinesAux rest []
    else splitlinesAux rest (c :: acc)

/-- `[ln.strip() for ln in text.splitlines() if ln.strip()]`. -/
def nonEmptyLines (l : List Char) : List (List Char) :=
  ((splitlinesAux l []).map pyStrip).filter (fun x => !x.isEmpty)

/-- Worker for `str.split()`: maximal runs of non-whitespace characters. -/
def wordsAux : List Char → List Char → List (List Char)
  | [], acc => if acc.isEmpty then [] else [acc.reverse]
  | c :: rest, acc =>
    if isSpace c then
      (if acc.isEmpty then wordsAux rest [] else acc.reverse :: wordsAux rest [])
    else wordsAux rest (c :: acc)

/-- `" ".flatten(ws)`. -/
def joinSp : List (List Char) → List Char
  | [] => []
  | [w] => w
  | w :: ws => w ++ (' ' :: joinSp ws)

/-- `_clean_line(s) = " ".flatten(s.strip().split())`. -/
def cleanLine (l : List Char) : List Char := joinSp (wordsAux l [])

/-- Match a literal label at the current position, case-insensitively
(`re.IGNORECASE`, ASCII case folding); return the remaining text. -/
def matchLabelCI : List Char → List Char → Option (List Char)
  | [], s => some s
  | _ :: _, [] => none
  | c :: lab, d :: s =>
    if c.toLower = d.toLower then matchLabelCI lab s else none

/-- Match `\s*(.+)` at the current position: `\s*` greedy, then a greedy
`.+` group (`.` excludes `'\n'`), with regex backtracking.  If a
non-whitespace character follows the whitespace run, the group captures
from it to the end of its line; if only whitespace remains, backtracking
starts the group at the last non-`'\n'` whitespace character, all later
characters being newlines. -/
def matchDotPlus (r : List Char) : Option (List Char) :=
  let r2 := r.dropWhile isSpace
  if r2.isEmpty then
    match r.reverse.dropWhile (fun c => c == '\n') with
    | [] => none
    | c :: _ => some [c]
  else some (r2.takeWhile (fun c => !(c == '\n')))

/-- Match `\s*([0-9]+)` at the current position: digits are not
whitespace, so no backtracking into `\s*` can help. -/
def matchDigits (r : List Char) : Option (List Char) :=
  match r.dropWhile isSpace with
  | [] => none
  | c :: cs =>
    if c.isDigit then some ((c :: cs).takeWhile Char.isDigit) else none

/-- `re.search` for pattern `lab` + group: try every start position left
to right, first full match wins. -/
def searchPat (lab : List Char) (g : List Char → Option (List Char)) :
    List Char → Option (List Char)
  | [] => (matchLabelCI lab []).bind g
  | c :: rest =>
    match (matchLabelCI lab (c :: rest)).bind g with
    | some cap => some cap
    | none => searchPat lab g rest

/-- `_FIELD_PATTERNS["stand_number"].search`: `Stand number:\s*([0-9]+)`. -/
def standCap (t : List Char) : Option (List Char) :=
  searchPat "Stand number:".data matchDigits t

/-- `_FIELD_PATTERNS["county"].search`: `County:\s*(.+)`. -/
def countyCap (t : List Char) : Option (List Char) :=
  searchPat "County:".data matchDotPlus t

/-- `_FIELD_PATTERNS["school"].search`: `School:\s*(.+)`. -/
def schoolCap (t : List Char) : Option (List Char) :=
  searchPat "School:".data matchDotPlus t

/-- `_FIELD_PATTERNS["category"].search`: `Category:\s*(.+)`. -/
def categoryCap (t : List Char) : Option (List Char) :=
  searchPat "Category:".data matchDotPlus t

/-- `_FIELD_PATTERNS["project_type"].search`: `Project type:\s*(.+)`. -/
def typeCap (t : List Char) : Option (List Char) :=
  searchPat "Project type:".data matchDotPlus t

/-- Numeric value of a digit string. -/
def digitsToNat (l : List Char) : Nat :=
  l.foldl (fun n c => 10 * n + (c.toNat - 48)) 0

/-- Python `int(s)` restricted to the shapes reachable here: optional
surrounding whitespace, optional sign, a non-empty digit run; anything
else raises `ValueError`, modelled as `none`. -/
def pyInt? (l : List Char) : Option Int :=
  match pyStrip l with
  | [] => none
  | c :: ds =>
    if c = '+' then
      (if ds ≠ [] ∧ ds.all Char.isDigit then some (Int.ofNat (digitsToNat ds)) else none)
    else if c = '-' then
      (if ds ≠ [] ∧ ds.all Char.isDigit then some (-(Int.ofNat (digitsToNat ds))) else none)
    else if (c :: ds).all Char.isDigit then some (Int.ofNat (digitsToNat (c :: ds)))
    else none

/-- The `Project` dataclass of the script. -/
structure Project where
  title : String
  stand_number : Int
  county : String
  school : String
  category : String
  project_type : String
deriving DecidableEq, Repr

/-- `parse_project_block(text_block)`: strip; reject empty; title = the
first non-empty stripped line, cleaned; search the five field patterns
over the whole stripped text, rejecting the block if any fails; clean
each capture; `int()` the stand-number capture, rejecting on
`ValueError`. -/
def parse_project_block (s : String) : Option Project :=
  if (pyStrip s.data).isEmpty then none
  else
    match nonEmptyLines (pyStrip s.data) with
    | [] => none
    | ln :: _ =>
      match standCap (pyStrip s.data), countyCap (pyStrip s.data),
            schoolCap (pyStrip s.data), categoryCap (pyStrip s.data),
            typeCap (pyStrip s.data) with
      | some sn, some co, some sc, some ca, some ty =>
        match pyInt? (cleanLine sn) with
        | none => none
        | some n =>
          some { title := ⟨cleanLine ln⟩, stand_number := n,
                 county := ⟨cleanLine co⟩, school := ⟨cleanLine sc⟩,
                 category := ⟨cleanLine ca⟩, project_type := ⟨cleanLine ty⟩ }
      | _, _, _, _, _ => none

/-- Match `(\d+)\s*/\s*(\d+)` at the current position.  The first group
is a maximal digit run (shortening it leaves a digit where `/` must
stand, so backtracking cannot help), then optional whitespace, `/`,
optional whitespace, and a second non-empty digit run. -/
def counterMatchAt (s : List Char) : Option (List Char × List Char) :=
  match s.takeWhile Char.isDigit with
  | [] => none
  | d1 =>
    match (s.dropWhile Char.isDigit).dropWhile isSpace with
    | '/' :: r2 =>
      match (r2.dropWhile isSpace).takeWhile Char.isDigit with
      | [] => none
      | d2 => some (d1, d2)
    | _ => none

/-- `_COUNTER_RE.search`: leftmost occurrence. -/
def counterSearch : List Char → Option (List Char × List Char)
  | [] => none
  | c :: rest =>
    match counterMatchAt (c :: rest) with
    | some g => some g
    | none => counterSearch rest

/-- `parse_counter(counter_text)`. -/
def parse_counter (s : String) : Option (Nat × Nat) :=
  (counterSearch s.data).map (fun g => (digitsToNat g.1, digitsToNat g.2))

/-- `SOCIAL_CATEGORY`. -/
def SOCIAL_CATEGORY : String := "Social & Behavioural Sciences"

/-- Dedup key `(pr.title, pr.stand_number, pr.school)`. -/
abbrev DKey := String × Int × String

def dedupKey (p : Project) : DKey := (p.title, p.stand_number, p.school)

/-- `all_projects` dict: an ordered key-value list with Python-dict
semantics (assignment keeps an existing key's position, appends a new
key). -/
abbrev AggMap := List (DKey × Project)

/-- `all_projects[key] = pr`. -/
def upsert (m : AggMap) (p : Project) : AggMap :=
  if m.any (fun kv => decide (kv.1 = dedupKey p)) then
    m.map (fun kv => if kv.1 = dedupKey p then (kv.1, p) else kv)
  else m ++ [(dedupKey p, p)]

/-- Lookup in the aggregation map. -/
def findVal (m : AggMap) (k : DKey) : Option Project :=
  (m.find? (fun kv => decide (kv.1 = k))).map (fun kv => kv.2)

/-- Number of entries stored under a key. -/
def keyCount (m : AggMap) (k : DKey) : Nat :=
  m.countP (fun kv => decide (kv.1 = k))

/-- Body of `for b in blocks`: parse; skip unparsable blocks; skip
non-Social categories (`pr.category.strip() != SOCIAL_CATEGORY`);
otherwise upsert. -/
def ingest (m : AggMap) (b : String) : AggMap :=
  match parse_project_block b with
  | none => m
  | some pr =>
    if String.mk (pyStrip pr.category.data) = SOCIAL_CATEGORY then upsert m pr
    else m

def processBlocks (m : AggMap) (bs : List String) : AggMap :=
  bs.foldl ingest m

/-- One iteration's view of the page, as the loop observes it: the
extracted block texts, the counter text (`None` when no selector
produced visible text), and whether `click_first_available` succeeds. -/
structure IterInput where
  blocks : List String
  counterText : Option String
  clickOk : Bool

/-- Why the while-loop broke.  `fuelOut` is an artefact of the embedding
only: it marks recursion-budget exhaustion, which the termination
theorem shows is never reached from the initial state. -/
inductive StopReason where
  | stalled
  | totalReached
  | noAdvance
  | safetyCeiling
  | fuelOut
deriving DecidableEq, Repr

/-- Mutable state of the while-loop: `last_counter`, `all_projects`,
`safety_clicks`. -/
structure LoopState where
  lastCounter : Option (Nat × Nat)
  projects : AggMap
  safetyClicks : Nat
deriving DecidableEq, Repr

inductive StepRes where
  | halt : StopReason → AggMap → StepRes
  | next : LoopState → StepRes
deriving DecidableEq, Repr

/-- The tail of an iteration after the counter checks: try to click
next (`break` if nothing clickable), bump `safety_clicks`, `break` past
the hard ceiling of 500 clicks. -/
def advanceStep (inp : IterInput) (m : AggMap) (lc : Option (Nat × Nat))
    (sc : Nat) : StepRes :=
  if inp.clickOk then
    if 500 < sc + 1 then .halt .safetyCeiling m
    else .next ⟨lc, m, sc + 1⟩
  else .halt .noAdvance m

/-- The counter checks of an iteration, in source order: a counter equal
to `last_counter` breaks with a stall, then `current >= total` breaks,
else `last_counter` is updated and the advance is attempted. -/
def stepCounter (inp : IterInput) (st : LoopState) (c : Nat × Nat) : StepRes :=
  if st.lastCounter = some c then
    .halt .stalled (processBlocks st.projects inp.blocks)
  else if c.2 ≤ c.1 then
    .halt .totalReached (processBlocks st.projects inp.blocks)
  else advanceStep inp (processBlocks st.projects inp.blocks) (some c) st.safetyClicks

/-- One iteration of the while-loop in `main`: ingest the page's blocks,
read and parse the counter, apply the stop policy in source order
(stall, then `current >= total`, then click failure, then the safety
ceiling). -/
def step (inp : IterInput) (st : LoopState) : StepRes :=
  match parse_counter (inp.counterText.getD "") with
  | some c => stepCounter inp st c
  | none =>
    advanceStep inp (processBlocks st.projects inp.blocks) st.lastCounter
      st.safetyClicks

/-- The while-loop, driven by the per-iteration page views `inputs`;
`i` is the iteration index, `fuel` the recursion budget.  Returns the
final `all_projects`, the stop reason, and the number of iterations
executed. -/
def loopAux (inputs : Nat → IterInput) : LoopState → Nat → Nat →
    AggMap × StopReason × Nat
  | st, i, 0 => (st.projects, .fuelOut, i)
  | st, i, fuel + 1 =>
    match step (inputs i) st with
    | .halt r m => (m, r, i + 1)
    | .next st2 => loopAux inputs st2 (i + 1) fuel

/-- `last_counter = None`, `all_projects = {}`, `safety_clicks = 0`. -/
def initState : LoopState := ⟨none, [], 0⟩

/-- Stable insertion into a sorted list (used to model Python's stable
`list.sort`/`sorted`). -/
def insertLe {α : Type} (le : α → α → Bool) (a : α) : List α → List α
  | [] => [a]
  | b :: bs => if le a b then a :: b :: bs else b :: insertLe le a bs

/-- Stable insertion sort. -/
def isort {α : Type} (le : α → α → Bool) : List α → List α
  | [] => []
  | a :: rest => insertLe le a (isort le rest)

/-- `sections[key].sort(key=lambda x: x.stand_number)` comparison. -/
def standLe (p q : Project) : Bool := decide (p.stand_number ≤ q.stand_number)

/-- `sections.setdefault(pr.project_type, []).append(pr)`. -/
def addToSections (secs : List (String × List Project)) (p : Project) :
    List (String × List Project) :=
  if secs.any (fun kv => decide (kv.1 = p.project_type)) then
    secs.map (fun kv =>
      if kv.1 = p.project_type then (kv.1, kv.2 ++ [p]) else kv)
  else secs ++ [(p.project_type, [p])]

/-- `sorted(sections.items(), key=lambda kv: kv[0])` comparison: ordinal
(code-point lexicographic) string order. -/
def secLe (a b : String × List Project) : Bool := decide (a.1 ≤ b.1)

/-- The grouped final view of `main`: partition the aggregated records
by `project_type` in encounter order, sort each section by
`stand_number`, then order the sections by key. -/
def buildSections (ps : List Project) : List (String × List Project) :=
  isort secLe ((ps.foldl addToSections []).map (fun kv => (kv.1, isort standLe kv.2)))

/-- Concrete block from the spec's concrete scenario. -/
def alphaBlock : String :=
  "Alpha Robotics\nStand number:\n3400\nCounty:\nDublin\nSchool:\nSt. X\nCategory:\nSocial & Behavioural Sciences\nProject type:\nGroup (2)\nWatch video"

/-- The record `parse_project_block` actually produces on `alphaBlock`. -/
def alphaProject : Project :=
  ⟨"Alpha Robotics", 3400, "Dublin", "St. X",
   "Social & Behavioural Sciences", "Group (2)"⟩

/-- Concrete block whose printed project type is lower-case `"group (3)"`. -/
def betaBlock : String :=
  "Beta Study\nStand number:\n12\nCounty:\nCork\nSchool:\nY\nCategory:\nBiology\nProject type:\ngroup (3)\nWatch video"

/-- Concrete block with the `County:` label missing. -/
def missingCountyBlock : String :=
  "T\nStand number:\n5\nSchool:\nY\nCategory:\nZ\nProject type:\nIndividual"

/-- `alphaProject` re-observed with a different county (same dedup key). -/
def kerryProject : Project :=
  ⟨"Alpha Robotics", 3400, "Kerry", "St. X",
   "Social & Behavioural Sciences", "Group (2)"⟩

/-- Page views whose counter always reads `5 / 92`. -/
def stalledInputs : Nat → IterInput := fun _ => ⟨[], some "5 / 92", true⟩

/-- Page views whose counter always reads `92 / 92`. -/
def finalPageInputs : Nat → IterInput := fun _ => ⟨[], some "92 / 92", true⟩

/-- Page views whose counter never parses while the advance click always
succeeds. -/
def blindInputs : Nat → IterInput := fun _ => ⟨[], none, true⟩

/-- Page views showing the `alphaBlock` card once, with no clickable
advance control. -/
def onePageInputs : Nat → IterInput := fun _ => ⟨[alphaBlock], none, false⟩

/-! ## Theorems -/

/-- C3 counterexample: on the spec's concrete block the parser stores the
raw printed value `"Group (2)"` in its single type field; the record
claimed by the spec, with a normalized `projectType = "Group"`, is not
produced. -/
theorem c3_counterexample :
    (parse_project_block alphaBlock).map Project.project_type = some "Group (2)" ∧
    ("Group (2)" : String) ≠ "Group" := by
  exact ⟨by decide, by decide⟩

/-- C3 amended: parsing the concrete block yields exactly the record
with title `"Alpha Robotics"`, stand number 3400, county `"Dublin"`,
school `"St. X"`, category `"Social & Behavioural Sciences"` and the
single type field `project_type = "Group (2)"` (each value captured
across the newline after its label); no separate `projectTypeRaw` field
exists and no normalization to `"Group"` happens. -/
theorem c3_amended : parse_project_block alphaBlock = some alphaProject := by
  decide

/-- C1 counterexample: on a block whose printed project type is
`"group (3)"` the record's only type field holds `"group (3)"`, not the
normalized enum value `"Group"` that the claim requires for a raw value
whose lower-casing starts with `"group"`. -/
theorem c1_counterexample :
    (parse_project_block betaBlock).map Project.project_type = some "group (3)" ∧
    ("group (3)" : String) ≠ "Group" := by
  exact ⟨by decide, by decide⟩

/-- C1 amended: for every block accepted by `parse_project_block`, the
record's single `project_type` field is the whitespace-normalized text
captured by the `Project type:` pattern, kept as printed; the code never
normalizes it to a `Group`/`Individual` enum and stores no separate
`projectTypeRaw` field. -/
theorem c1_amended (s : String) (p : Project)
    (h : parse_project_block s = some p) :
    ∃ cap, typeCap (pyStrip s.data) = some cap ∧
      p.project_type = String.mk (cleanLine cap) := by
  unfold parse_project_block at h
  split at h
  · exact absurd h (by simp)
  · split at h
    · exact absurd h (by simp)
    · rcases hsn : standCap (pyStrip s.data) with _ | sn <;>
        rcases hco : countyCap (pyStrip s.data) with _ | co <;>
        rcases hsc : schoolCap (pyStrip s.data) with _ | sc <;>
        rcases hca : categoryCap (pyStrip s.data) with _ | ca <;>
        rcases hty : typeCap (pyStrip s.data) with _ | ty <;>
        rw [hsn, hco, hsc, hca, hty] at h <;>
        try simp at h
      rcases hpi : pyInt? (cleanLine sn) with _ | n
      · rw [hpi] at h
        simp at h
      · rw [hpi] at h
        simp only [Option.some.injEq] at h
        exact ⟨ty, rfl, by rw [← h]⟩

/-- C1 witness. -/
theorem c1_witness :
    ∃ cap, typeCap (pyStrip betaBlock.data) = some cap ∧
      (⟨"Beta Study", 12, "Cork", "Y", "Biology", "group (3)"⟩ : Project).project_type =
        String.mk (cleanLine cap) :=
  c1_amended betaBlock ⟨"Beta Study", 12, "Cork", "Y", "Biology", "group (3)"⟩ (by decide)

/-- C2: `parse_project_block` returns `none` (no partial record)
whenever any of the five required label patterns fails to match the
stripped block text, and also whenever all five match but the cleaned
stand-number capture does not convert to an integer. -/
theorem c2_rejection_completeness (s : String)
    (h : (standCap (pyStrip s.data) = none ∨ countyCap (pyStrip s.data) = none ∨
          schoolCap (pyStrip s.data) = none ∨ categoryCap (pyStrip s.data) = none ∨
          typeCap (pyStrip s.data) = none) ∨
         (∃ c1 c2 c3 c4 c5,
            standCap (pyStrip s.data) = some c1 ∧ countyCap (pyStrip s.data) = some c2 ∧
            schoolCap (pyStrip s.data) = some c3 ∧ categoryCap (pyStrip s.data) = some c4 ∧
            typeCap (pyStrip s.data) = some c5 ∧ pyInt? (cleanLine c1) = none)) :
    parse_project_block s = none := by
  unfold parse_project_block
  split
  · rfl
  · split
    · rfl
    · rcases hsn : standCap (pyStrip s.data) with _ | sn <;>
        rcases hco : countyCap (pyStrip s.data) with _ | co <;>
        rcases hsc : schoolCap (pyStrip s.data) with _ | sc <;>
        rcases hca : categoryCap (pyStrip s.data) with _ | ca <;>
        rcases hty : typeCap (pyStrip s.data) with _ | ty <;>
        try rfl
      rcases h with h | ⟨c1, c2, c3, c4, c5, h1, h2, h3, h4, h5, hint⟩
      · simp_all
      · rw [h1] at hsn
        injection hsn with he
        subst he
        simp [hint]

/-- C2 witness. -/
theorem c2_witness : parse_project_block missingCountyBlock = none :=
  c2_rejection_completeness missingCountyBlock
    (Or.inl (Or.inr (Or.inl (by decide))))

theorem pyStrip_all_space (l : List Char) (h : pyStrip l = []) :
    ∀ c ∈ l, isSpace c = true := by
  unfold pyStrip at h
  rw [List.reverse_eq_nil_iff] at h
  have h2 : ∀ c ∈ (l.dropWhile isSpace).reverse, isSpace c = true :=
    List.dropWhile_eq_nil_iff.mp h
  intro c hc
  have hc2 : c ∈ l.takeWhile isSpace ++ l.dropWhile isSpace := by
    rw [List.takeWhile_append_dropWhile]
    exact hc
  rcases List.mem_append.mp hc2 with h3 | h3
  · exact List.mem_takeWhile_imp h3
  · exact h2 c (List.mem_reverse.mpr h3)

theorem isBreak_space (c : Char) (h : isBreak c = true) : isSpace c = true := by
  simp only [isBreak, Bool.or_eq_true, beq_iff_eq] at h
  rcases h with ((h | h) | h) | h <;> subst h <;> decide

theorem space_isDigit_false (c : Char) (h : isSpace c = true) :
    c.isDigit = false := by
  simp only [isSpace, Bool.or_eq_true, beq_iff_eq] at h
  rcases h with ((((h | h) | h) | h) | h) | h <;> subst h <;> decide

theorem digit_not_space (c : Char) (h : c.isDigit = true) : isSpace c = false := by
  by_contra hs
  rw [Bool.not_eq_false] at hs
  rw [space_isDigit_false c hs] at h
  cases h

theorem space_toLower_self (d : Char) (h : isSpace d = true) : d.toLower = d := by
  simp only [isSpace, Bool.or_eq_true, beq_iff_eq] at h
  rcases h with ((((h | h) | h) | h) | h) | h <;> subst h <;> decide

theorem label_head_not_space (c0 : Char) (hc0 : isSpace c0.toLower = false)
    (d : Char) (h : c0.toLower = d.toLower) : isSpace d = false := by
  by_contra hs
  rw [Bool.not_eq_false] at hs
  rw [space_toLower_self d hs] at h
  rw [h, hs] at hc0
  cases hc0

theorem filter_lines_ne_nil (t : List Char) : ∀ acc : List Char,
    (∃ c ∈ t, isSpace c = false) ∨ (∃ c ∈ acc, isSpace c = false) →
    ((splitlinesAux t acc).map pyStrip).filter (fun x => !x.isEmpty) ≠ [] := by
  induction t with
  | nil =>
    intro acc h
    rcases h with ⟨c, hc, _⟩ | ⟨c, hc, hcs⟩
    · exact absurd hc (List.not_mem_nil c)
    · have hne : pyStrip acc.reverse ≠ [] := by
        intro he
        rw [pyStrip_all_space _ he c (List.mem_reverse.mpr hc)] at hcs
        cases hcs
      simp only [splitlinesAux, List.map_cons, List.map_nil, List.filter_cons]
      rw [if_pos (by simpa using hne)]
      simp
  | cons c0 rest ih =>
    intro acc h
    cases hb : isBreak c0 with
    | true =>
      simp only [splitlinesAux, hb, if_true, List.map_cons, List.filter_cons]
      rcases h with ⟨c, hc, hcs⟩ | ⟨c, hc, hcs⟩
      · rcases List.mem_cons.mp hc with rfl | hc2
        · rw [isBreak_space c hb] at hcs
          cases hcs
        · have htail := ih [] (Or.inl ⟨c, hc2, hcs⟩)
          split <;> simp [htail]
      · have hne : pyStrip acc.reverse ≠ [] := by
          intro he
          rw [pyStrip_all_space _ he c (List.mem_reverse.mpr hc)] at hcs
          cases hcs
        rw [if_pos (by simpa using hne)]
        simp
    | false =>
      simp only [splitlinesAux, hb, if_false]
      apply ih (c0 :: acc)
      rcases h with ⟨c, hc, hcs⟩ | ⟨c, hc, hcs⟩
      · rcases List.mem_cons.mp hc with rfl | hc2
        · exact Or.inr ⟨c, List.mem_cons_self c acc, hcs⟩
        · exact Or.inl ⟨c, hc2, hcs⟩
      · exact Or.inr ⟨c, List.mem_cons_of_mem c0 hc, hcs⟩

theorem nonEmptyLines_ne_nil (t : List Char)
    (h : ∃ c ∈ t, isSpace c = false) : nonEmptyLines t ≠ [] := by
  unfold nonEmptyLines
  exact filter_lines_ne_nil t [] (Or.inl h)

theorem searchPat_some_mem (c0 : Char) (lab : List Char)
    (g : List Char → Option (List Char)) (t cap : List Char)
    (hc0 : ∀ d : Char, c0.toLower = d.toLower → isSpace d = false)
    (h : searchPat (c0 :: lab) g t = some cap) :
    ∃ d ∈ t, isSpace d = false := by
  induction t with
  | nil => rw [searchPat] at h; simp [matchLabelCI] at h
  | cons d rest ih =>
    rw [searchPat] at h
    cases hm : (matchLabelCI (c0 :: lab) (d :: rest)).bind g with
    | some cap2 =>
      cases hml : matchLabelCI (c0 :: lab) (d :: rest) with
      | none => rw [hml] at hm; cases hm
      | some r =>
        have hlow : c0.toLower = d.toLower := by
          by_contra hne
          simp [matchLabelCI, hne] at hml
        exact ⟨d, List.mem_cons_self d rest, hc0 d hlow⟩
    | none =>
      rw [hm] at h
      obtain ⟨e, he, hes⟩ := ih h
      exact ⟨e, List.mem_cons_of_mem d he, hes⟩

theorem matchDigits_some (r cap : List Char) (h : matchDigits r = some cap) :
    cap ≠ [] ∧ ∀ c ∈ cap, c.isDigit = true := by
  unfold matchDigits at h
  cases hd : r.dropWhile isSpace with
  | nil => rw [hd] at h; cases h
  | cons c cs =>
    rw [hd] at h
    have h2 : (if c.isDigit = true then
        some ((c :: cs).takeWhile Char.isDigit) else none) = some cap := h
    by_cases hc : c.isDigit = true
    · rw [if_pos hc] at h2
      injection h2 with h2
      subst h2
      refine ⟨by simp [List.takeWhile_cons, hc], ?_⟩
      intro x hx
      exact List.mem_takeWhile_imp hx
    · rw [if_neg hc] at h2; cases h2

theorem searchPat_digits (lab t cap : List Char)
    (h : searchPat lab matchDigits t = some cap) :
    cap ≠ [] ∧ ∀ c ∈ cap, c.isDigit = true := by
  induction t with
  | nil =>
    rw [searchPat] at h
    cases hml : matchLabelCI lab [] with
    | none => rw [hml] at h; cases h
    | some r => rw [hml] at h; exact matchDigits_some r cap h
  | cons c rest ih =>
    rw [searchPat] at h
    cases hm : (matchLabelCI lab (c :: rest)).bind matchDigits with
    | some cap2 =>
      rw [hm] at h
      injection h with h
      subst h
      cases hml : matchLabelCI lab (c :: rest) with
      | none => rw [hml] at hm; cases hm
      | some r => rw [hml] at hm; exact matchDigits_some r _ hm
    | none => rw [hm] at h; exact ih h

theorem wordsAux_nospace (l : List Char) : ∀ acc : List Char,
    (∀ c ∈ l, isSpace c = false) → (acc ≠ [] ∨ l ≠ []) →
    wordsAux l acc = [acc.reverse ++ l] := by
  induction l with
  | nil =>
    intro acc h hne
    rcases hne with hne | hne
    · rw [wordsAux, if_neg (by simpa using hne)]
      simp
    · cases hne rfl
  | cons c rest ih =>
    intro acc h hne
    rw [wordsAux, if_neg (by simp [h c (List.mem_cons_self c rest)])]
    rw [ih (c :: acc) (fun x hx => h x (List.mem_cons_of_mem c hx)) (Or.inl (by simp))]
    simp

theorem cleanLine_nospace (l : List Char) (hne : l ≠ [])
    (h : ∀ c ∈ l, isSpace c = false) : cleanLine l = l := by
  unfold cleanLine
  rw [wordsAux_nospace l [] h (Or.inr hne)]
  simp [joinSp]

theorem dropWhile_nospace {p : Char → Bool} (l : List Char)
    (h : ∀ c ∈ l, p c = false) : l.dropWhile p = l := by
  cases l with
  | nil => rfl
  | cons c rest =>
    rw [List.dropWhile_cons, h c (List.mem_cons_self c rest)]
    simp

theorem pyStrip_nospace (l : List Char) (h : ∀ c ∈ l, isSpace c = false) :
    pyStrip l = l := by
  unfold pyStrip
  rw [dropWhile_nospace l h,
      dropWhile_nospace l.reverse (fun c hc => h c (List.mem_reverse.mp hc)),
      List.reverse_reverse]

theorem pyInt_digits (l : List Char) (hne : l ≠ [])
    (h : ∀ c ∈ l, c.isDigit = true) :
    pyInt? l = some (Int.ofNat (digitsToNat l)) := by
  cases l with
  | nil => cases hne rfl
  | cons c0 ds =>
    unfold pyInt?
    rw [pyStrip_nospace _ (fun x hx => digit_not_space x (h x hx))]
    have hc : c0.isDigit = true := h c0 (List.mem_cons_self c0 ds)
    have hplus : c0 ≠ '+' := by intro he; subst he; simp at hc
    have hminus : c0 ≠ '-' := by intro he; subst he; simp at hc
    simp [hplus, hminus, List.all_eq_true, h]
    intro x hx
    exact h x (List.mem_cons_of_mem c0 hx)

/-- C9: whenever all five field patterns match a block's stripped text,
the integer conversion of the cleaned stand-number capture always
succeeds and yields a non-negative integer (the `ValueError` branch of
`parse_project_block` is unreachable, because the stand-number pattern
captures only digit characters), and the parse as a whole succeeds. -/
theorem c9_stand_number_total (s : String) (c1 c2 c3 c4 c5 : List Char)
    (h1 : standCap (pyStrip s.data) = some c1)
    (h2 : countyCap (pyStrip s.data) = some c2)
    (h3 : schoolCap (pyStrip s.data) = some c3)
    (h4 : categoryCap (pyStrip s.data) = some c4)
    (h5 : typeCap (pyStrip s.data) = some c5) :
    (∃ n : Int, pyInt? (cleanLine c1) = some n ∧ 0 ≤ n) ∧
    (∃ p, parse_project_block s = some p) := by
  obtain ⟨hne, hdig⟩ := searchPat_digits _ _ _ h1
  have hcl : cleanLine c1 = c1 :=
    cleanLine_nospace c1 hne (fun c hc => digit_not_space c (hdig c hc))
  have hint : pyInt? (cleanLine c1) = some (Int.ofNat (digitsToNat c1)) := by
    rw [hcl]
    exact pyInt_digits c1 hne hdig
  refine ⟨⟨_, hint, Int.ofNat_nonneg _⟩, ?_⟩
  have h1x : searchPat ('S' :: "tand number:".data) matchDigits (pyStrip s.data) =
      some c1 := h1
  have hsp : ∃ d ∈ pyStrip s.data, isSpace d = false :=
    searchPat_some_mem 'S' "tand number:".data matchDigits _ c1
      (label_head_not_space 'S' (by decide)) h1x
  obtain ⟨d, hd, hds⟩ := hsp
  have hts : pyStrip s.data ≠ [] := by
    intro he
    rw [he] at hd
    exact absurd hd (List.not_mem_nil d)
  have hlines : nonEmptyLines (pyStrip s.data) ≠ [] :=
    nonEmptyLines_ne_nil _ ⟨d, hd, hds⟩
  unfold parse_project_block
  rw [if_neg (by simpa using hts)]
  cases hl : nonEmptyLines (pyStrip s.data) with
  | nil => exact absurd hl hlines
  | cons ln rest =>
    rw [h1, h2, h3, h4, h5]
    refine ⟨⟨⟨cleanLine ln⟩, Int.ofNat (digitsToNat c1), ⟨cleanLine c2⟩,
             ⟨cleanLine c3⟩, ⟨cleanLine c4⟩, ⟨cleanLine c5⟩⟩, ?_⟩
    simp [hint]

/-- C9 witness. -/
theorem c9_witness :
    (∃ n : Int, pyInt? (cleanLine ['1', '2']) = some n ∧ 0 ≤ n) ∧
    (∃ p, parse_project_block betaBlock = some p) :=
  c9_stand_number_total betaBlock ['1', '2'] "Cork".data "Y".data
    "Biology".data "group (3)".data
    (by decide) (by decide) (by decide) (by decide) (by decide)

theorem bool_not_true {b : Bool} (h : ¬b = true) : b = false := by
  cases b
  · rfl
  · exact absurd rfl h

theorem findVal_replace (m : AggMap) (k : DKey) (p : Project)
    (hmem : m.any (fun kv => decide (kv.1 = k)) = true) :
    findVal (m.map (fun kv => if kv.1 = k then (kv.1, p) else kv)) k = some p := by
  induction m with
  | nil => simp at hmem
  | cons kv rest ih =>
    rw [List.map_cons]
    by_cases hk : kv.1 = k
    · rw [if_pos hk]
      unfold findVal
      rw [List.find?_cons_of_pos _ (by simp [hk])]
      simp
    · rw [if_neg hk]
      have hmem2 : rest.any (fun kv => decide (kv.1 = k)) = true := by
        rw [List.any_cons] at hmem
        simpa [hk] using hmem
      unfold findVal at ih ⊢
      rw [List.find?_cons_of_neg _ (by simp [hk])]
      exact ih hmem2

theorem findVal_append_single (m : AggMap) (k : DKey) (p : Project)
    (hmem : m.any (fun kv => decide (kv.1 = k)) = false) :
    findVal (m ++ [(k, p)]) k = some p := by
  unfold findVal
  rw [List.find?_append]
  have h0 : m.find? (fun kv => decide (kv.1 = k)) = none := by
    rw [List.find?_eq_none]
    intro kv hkv
    simp only [decide_eq_true_eq]
    intro he
    have : m.any (fun kv => decide (kv.1 = k)) = true :=
      List.any_eq_true.mpr ⟨kv, hkv, decide_eq_true he⟩
    rw [hmem] at this
    cases this
  rw [h0]
  simp [List.find?]

theorem upsert_findVal_self (m : AggMap) (p : Project) :
    findVal (upsert m p) (dedupKey p) = some p := by
  unfold upsert
  split
  · next hany => exact findVal_replace m _ p hany
  · next hany => exact findVal_append_single m _ p (bool_not_true hany)

theorem findVal_replace_ne (m : AggMap) (kr k : DKey) (p : Project)
    (hne : k ≠ kr) :
    findVal (m.map (fun kv => if kv.1 = kr then (kv.1, p) else kv)) k =
      findVal m k := by
  induction m with
  | nil => rfl
  | cons kv rest ih =>
    rw [List.map_cons]
    by_cases hk : kv.1 = kr
    · rw [if_pos hk]
      have hkk : ¬(kv.1 = k) := fun he => hne (by rw [← he, hk])
      unfold findVal at ih ⊢
      rw [List.find?_cons_of_neg _ (by simp [hkk]),
          List.find?_cons_of_neg _ (by simp [hkk])]
      exact ih
    · rw [if_neg hk]
      by_cases hkk : kv.1 = k
      · unfold findVal
        rw [List.find?_cons_of_pos _ (by simp [hkk]),
            List.find?_cons_of_pos _ (by simp [hkk])]
      · unfold findVal at ih ⊢
        rw [List.find?_cons_of_neg _ (by simp [hkk]),
            List.find?_cons_of_neg _ (by simp [hkk])]
        exact ih

theorem findVal_append_ne (m : AggMap) (kr k : DKey) (p : Project)
    (hne : k ≠ kr) :
    findVal (m ++ [(kr, p)]) k = findVal m k := by
  unfold findVal
  rw [List.find?_append]
  have h2 : List.find? (fun kv => decide (kv.1 = k)) [(kr, p)] = none := by
    rw [List.find?_eq_none]
    intro kv hkv
    rw [List.mem_singleton] at hkv
    subst hkv
    simp only [decide_eq_true_eq]
    exact fun he => hne he.symm
  rw [h2]
  cases m.find? (fun kv => decide (kv.1 = k)) <;> rfl

theorem upsert_findVal_ne (m : AggMap) (p : Project) (k : DKey)
    (hne : k ≠ dedupKey p) :
    findVal (upsert m p) k = findVal m k := by
  unfold upsert
  split
  · exact findVal_replace_ne m (dedupKey p) k p hne
  · exact findVal_append_ne m (dedupKey p) k p hne

theorem countP_map_replace (m : AggMap) (kr : DKey) (p : Project) (k : DKey) :
    keyCount (m.map (fun kv => if kv.1 = kr then (kv.1, p) else kv)) k =
      keyCount m k := by
  induction m with
  | nil => rfl
  | cons kv rest ih =>
    simp only [keyCount, List.map_cons, List.countP_cons] at ih ⊢
    have h1 : (decide ((if kv.1 = kr then (kv.1, p) else kv).1 = k)) =
        decide (kv.1 = k) := by
      split <;> rfl
    rw [h1, ih]

theorem keyCount_mem_nodup (m : AggMap) (k : DKey)
    (hnd : (m.map Prod.fst).Nodup)
    (hmem : m.any (fun kv => decide (kv.1 = k)) = true) :
    keyCount m k = 1 := by
  induction m with
  | nil => simp at hmem
  | cons kv rest ih =>
    simp only [List.map_cons, List.nodup_cons] at hnd
    obtain ⟨hnotin, hnd2⟩ := hnd
    by_cases hk : kv.1 = k
    · have hz : keyCount rest k = 0 := by
        rw [keyCount, List.countP_eq_zero]
        intro kv2 hkv2
        simp only [decide_eq_true_eq]
        intro he
        exact hnotin (by rw [hk, ← he]; exact List.mem_map_of_mem Prod.fst hkv2)
      simp only [keyCount, List.countP_cons] at hz ⊢
      simp [hk, hz]
    · have hmem2 : rest.any (fun kv => decide (kv.1 = k)) = true := by
        rw [List.any_cons] at hmem
        simp [hk] at hmem
        simpa using hmem
      simp only [keyCount, List.countP_cons] at ih ⊢
      simp [hk]
      have := ih hnd2 hmem2
      simpa [keyCount] using this

theorem countP_append_single (m : AggMap) (k : DKey) (p : Project)
    (hmem : m.any (fun kv => decide (kv.1 = k)) = false) :
    keyCount (m ++ [(k, p)]) k = 1 := by
  rw [keyCount, List.countP_append]
  have h0 : List.countP (fun kv => decide (kv.1 = k)) m = 0 := by
    rw [List.countP_eq_zero]
    intro kv hkv
    simp only [decide_eq_true_eq]
    intro he
    have : m.any (fun kv => decide (kv.1 = k)) = true :=
      List.any_eq_true.mpr ⟨kv, hkv, decide_eq_true he⟩
    rw [hmem] at this
    cases this
  rw [h0]
  simp [List.countP_cons]

theorem upsert_keys_nodup (m : AggMap) (p : Project)
    (hnd : (m.map Prod.fst).Nodup) :
    ((upsert m p).map Prod.fst).Nodup := by
  unfold upsert
  split
  · have he : (m.map (fun kv =>
        if kv.1 = dedupKey p then (kv.1, p) else kv)).map Prod.fst =
        m.map Prod.fst := by
      rw [List.map_map]
      apply List.map_congr_left
      intro kv _
      simp only [Function.comp]
      split <;> rfl
    rw [he]
    exact hnd
  · next hany =>
    rw [List.map_append]
    have hnot : dedupKey p ∉ m.map Prod.fst := by
      intro hin
      obtain ⟨kv, hkv, hfst⟩ := List.mem_map.mp hin
      exact hany (List.any_eq_true.mpr ⟨kv, hkv, by simp [hfst]⟩)
    simp [List.nodup_append, hnd, hnot]

theorem upsert_keyCount_self (m : AggMap) (p : Project)
    (hnd : (m.map Prod.fst).Nodup) :
    keyCount (upsert m p) (dedupKey p) = 1 := by
  unfold upsert
  split
  · next hany => rw [countP_map_replace]; exact keyCount_mem_nodup m _ hnd hany
  · next hany => exact countP_append_single m _ p (bool_not_true hany)

/-- C4: upserting two records with equal dedup key (title, stand number,
school) in sequence, into a map with Python-dict keys (no duplicates),
leaves exactly one entry under that key, holding the most recently
upserted record's field values; every other key's entry is unchanged. -/
theorem c4_upsert_last_write_wins (m : AggMap) (p1 p2 : Project) (k : DKey)
    (hnd : (m.map Prod.fst).Nodup) (hkey : dedupKey p1 = dedupKey p2)
    (hne : k ≠ dedupKey p2) :
    keyCount (upsert (upsert m p1) p2) (dedupKey p2) = 1 ∧
    findVal (upsert (upsert m p1) p2) (dedupKey p2) = some p2 ∧
    findVal (upsert (upsert m p1) p2) k = findVal m k := by
  refine ⟨?_, upsert_findVal_self _ p2, ?_⟩
  · exact upsert_keyCount_self (upsert m p1) p2 (upsert_keys_nodup m p1 hnd)
  · rw [upsert_findVal_ne _ p2 k hne, upsert_findVal_ne _ p1 k (hkey ▸ hne)]

/-- C4 witness. -/
theorem c4_witness :
    keyCount (upsert (upsert [] alphaProject) kerryProject)
      (dedupKey kerryProject) = 1 ∧
    findVal (upsert (upsert [] alphaProject) kerryProject)
      (dedupKey kerryProject) = some kerryProject ∧
    findVal (upsert (upsert [] alphaProject) kerryProject) ("Z", 1, "W") =
      findVal [] ("Z", 1, "W") :=
  c4_upsert_last_write_wins [] alphaProject kerryProject ("Z", 1, "W")
    (by simp) (by decide) (by decide)

/-- C6: whenever an iteration's counter parses to the very value stored
from the previous iteration, the while-loop halts on that iteration with
the stall condition — for every input stream, whatever the click
availability and even when `current < total` — attempting no further
advance. -/
theorem c6_stall_halts (inputs : Nat → IterInput) (st : LoopState)
    (i fuel : Nat) (c : Nat × Nat)
    (hc : parse_counter ((inputs i).counterText.getD "") = some c)
    (hl : st.lastCounter = some c) :
    loopAux inputs st i (fuel + 1) =
      (processBlocks st.projects (inputs i).blocks, .stalled, i + 1) := by
  have hstep : step (inputs i) st =
      .halt .stalled (processBlocks st.projects (inputs i).blocks) := by
    unfold step
    rw [hc]
    show stepCounter (inputs i) st c = _
    unfold stepCounter
    rw [if_pos hl]
  simp only [loopAux, hstep]

/-- C6 witness: the counter stream `[(5,92), (5,92)]` halts the loop on
the second read despite `5 < 92`. -/
theorem c6_witness :
    (5 : Nat) < 92 ∧
    loopAux stalledInputs ⟨some (5, 92), [], 1⟩ 1 500 = ([], .stalled, 2) :=
  ⟨by decide,
   c6_stall_halts stalledInputs ⟨some (5, 92), [], 1⟩ 1 499 (5, 92)
     (by decide) rfl⟩

/-- C7: whenever an iteration's counter parses with `current ≥ total`
and differs from the previous iteration's stored counter, the while-loop
halts on that iteration with the total-reached condition, attempting no
further advance, for every input stream. -/
theorem c7_total_reached_halts (inputs : Nat → IterInput) (st : LoopState)
    (i fuel : Nat) (c : Nat × Nat)
    (hc : parse_counter ((inputs i).counterText.getD "") = some c)
    (hl : st.lastCounter ≠ some c) (hge : c.2 ≤ c.1) :
    loopAux inputs st i (fuel + 1) =
      (processBlocks st.projects (inputs i).blocks, .totalReached, i + 1) := by
  have hstep : step (inputs i) st =
      .halt .totalReached (processBlocks st.projects (inputs i).blocks) := by
    unfold step
    rw [hc]
    show stepCounter (inputs i) st c = _
    unfold stepCounter
    rw [if_neg hl, if_pos hge]
  simp only [loopAux, hstep]

/-- C7 witness: after `[(1,92), …, (91,92)]` the read `(92,92)` halts the
loop exactly there. -/
theorem c7_witness :
    loopAux finalPageInputs ⟨some (91, 92), [], 91⟩ 91 400 =
      ([], .totalReached, 92) :=
  c7_total_reached_halts finalPageInputs ⟨some (91, 92), [], 91⟩ 91 399
    (92, 92) (by decide) (by decide) (by decide)

theorem advanceStep_halt_reason (inp : IterInput) (m : AggMap)
    (lc : Option (Nat × Nat)) (sc : Nat) (r : StopReason) (m2 : AggMap)
    (h : advanceStep inp m lc sc = .halt r m2) : r ≠ .fuelOut := by
  intro hr
  subst hr
  unfold advanceStep at h
  split at h
  · split at h
    · injection h with h1 h2
      cases h1
    · cases h
  · injection h with h1 h2
    cases h1

theorem stepCounter_halt_reason (inp : IterInput) (st : LoopState)
    (c : Nat × Nat) (r : StopReason) (m2 : AggMap)
    (h : stepCounter inp st c = .halt r m2) : r ≠ .fuelOut := by
  intro hr
  subst hr
  unfold stepCounter at h
  split at h
  · injection h with h1 h2
    cases h1
  · split at h
    · injection h with h1 h2
      cases h1
    · exact advanceStep_halt_reason _ _ _ _ _ _ h rfl

theorem step_halt_reason (inp : IterInput) (st : LoopState) (r : StopReason)
    (m2 : AggMap) (h : step inp st = .halt r m2) : r ≠ .fuelOut := by
  unfold step at h
  cases hpc : parse_counter (inp.counterText.getD "") with
  | none => rw [hpc] at h; exact advanceStep_halt_reason _ _ _ _ _ _ h
  | some c => rw [hpc] at h; exact stepCounter_halt_reason _ _ _ _ _ h

theorem advanceStep_next (inp : IterInput) (m : AggMap)
    (lc : Option (Nat × Nat)) (sc : Nat) (st2 : LoopState)
    (h : advanceStep inp m lc sc = .next st2) :
    st2.safetyClicks = sc + 1 ∧ sc + 1 ≤ 500 ∧ st2.projects = m := by
  unfold advanceStep at h
  split at h
  · split at h
    · cases h
    · next hle =>
      injection h with h
      subst h
      exact ⟨rfl, by omega, rfl⟩
  · cases h

theorem stepCounter_next (inp : IterInput) (st : LoopState) (c : Nat × Nat)
    (st2 : LoopState) (h : stepCounter inp st c = .next st2) :
    st2.safetyClicks = st.safetyClicks + 1 ∧ st.safetyClicks + 1 ≤ 500 ∧
    st2.projects = processBlocks st.projects inp.blocks := by
  unfold stepCounter at h
  split at h
  · cases h
  · split at h
    · cases h
    · exact advanceStep_next _ _ _ _ _ h

theorem step_next (inp : IterInput) (st : LoopState) (st2 : LoopState)
    (h : step inp st = .next st2) :
    st2.safetyClicks = st.safetyClicks + 1 ∧ st.safetyClicks + 1 ≤ 500 ∧
    st2.projects = processBlocks st.projects inp.blocks := by
  unfold step at h
  cases hpc : parse_counter (inp.counterText.getD "") with
  | none => rw [hpc] at h; exact advanceStep_next _ _ _ _ _ h
  | some c => rw [hpc] at h; exact stepCounter_next _ _ _ _ h

theorem advanceStep_halt_map (inp : IterInput) (m : AggMap)
    (lc : Option (Nat × Nat)) (sc : Nat) (r : StopReason) (m2 : AggMap)
    (h : advanceStep inp m lc sc = .halt r m2) : m2 = m := by
  unfold advanceStep at h
  split at h
  · split at h
    · injection h with h1 h2
      exact h2.symm
    · cases h
  · injection h with h1 h2
    exact h2.symm

theorem stepCounter_halt_map (inp : IterInput) (st : LoopState)
    (c : Nat × Nat) (r : StopReason) (m2 : AggMap)
    (h : stepCounter inp st c = .halt r m2) :
    m2 = processBlocks st.projects inp.blocks := by
  unfold stepCounter at h
  split at h
  · injection h with h1 h2
    exact h2.symm
  · split at h
    · injection h with h1 h2
      exact h2.symm
    · exact advanceStep_halt_map _ _ _ _ _ _ h

theorem step_halt_map (inp : IterInput) (st : LoopState) (r : StopReason)
    (m2 : AggMap) (h : step inp st = .halt r m2) :
    m2 = processBlocks st.projects inp.blocks := by
  unfold step at h
  cases hpc : parse_counter (inp.counterText.getD "") with
  | none => rw [hpc] at h; exact advanceStep_halt_map _ _ _ _ _ _ h
  | some c => rw [hpc] at h; exact stepCounter_halt_map _ _ _ _ _ h

theorem loopAux_no_fuelOut (inputs : Nat → IterInput) :
    ∀ fuel st i, st.safetyClicks ≤ 500 → 502 ≤ st.safetyClicks + fuel →
    (loopAux inputs st i fuel).2.1 ≠ .fuelOut := by
  intro fuel
  induction fuel with
  | zero =>
    intro st i h1 h2
    omega
  | succ n ih =>
    intro st i h1 h2
    simp only [loopAux]
    cases hstep : step (inputs i) st with
    | halt r m => exact step_halt_reason _ _ _ _ hstep
    | next st2 =>
      obtain ⟨ha, hb, _⟩ := step_next _ _ _ hstep
      exact ih st2 (i + 1) (by omega) (by omega)

theorem loopAux_fuel_irrel (inputs : Nat → IterInput) :
    ∀ f1 f2 st i, st.safetyClicks ≤ 500 → 502 ≤ st.safetyClicks + f1 →
      502 ≤ st.safetyClicks + f2 →
    loopAux inputs st i f1 = loopAux inputs st i f2 := by
  intro f1
  induction f1 with
  | zero =>
    intro f2 st i h1 h2 h3
    omega
  | succ n ih =>
    intro f2 st i h1 h2 h3
    cases f2 with
    | zero => omega
    | succ n2 =>
      simp only [loopAux]
      cases hstep : step (inputs i) st with
      | halt r m => rfl
      | next st2 =>
        obtain ⟨ha, hb, _⟩ := step_next _ _ _ hstep
        exact ih n2 st2 (i + 1) (by omega) (by omega) (by omega)

/-- C8: for every sequence of page views, the pagination loop performs
only finitely many iterations: with any recursion budget of at least 502
iterations the run's outcome is already fixed, and the loop always stops
through one of its own conditions — the hard safety ceiling of 500
clicks included — never by exhausting the budget. -/
theorem c8_loop_terminates (inputs : Nat → IterInput) (fuel : Nat)
    (h : 502 ≤ fuel) :
    loopAux inputs initState 0 fuel = loopAux inputs initState 0 502 ∧
    (loopAux inputs initState 0 fuel).2.1 ≠ .fuelOut := by
  constructor
  · exact loopAux_fuel_irrel inputs fuel 502 initState 0 (by decide)
      (by simpa [initState] using h) (by decide)
  · exact loopAux_no_fuelOut inputs fuel initState 0 (by decide)
      (by simpa [initState] using h)

/-- C8 witness: a run whose counter never parses and whose advance click
always succeeds. -/
theorem c8_witness :
    (502 : Nat) ≤ 502 ∧
    (loopAux blindInputs initState 0 502 = loopAux blindInputs initState 0 502 ∧
     (loopAux blindInputs initState 0 502).2.1 ≠ .fuelOut) :=
  ⟨Nat.le_refl 502, c8_loop_terminates blindInputs 502 (Nat.le_refl 502)⟩

theorem upsert_mem_cases (m : AggMap) (p : Project) (kv : DKey × Project)
    (h : kv ∈ upsert m p) : kv ∈ m ∨ kv.2 = p := by
  unfold upsert at h
  split at h
  · obtain ⟨kv0, hkv0, heq⟩ := List.mem_map.mp h
    by_cases hk : kv0.1 = dedupKey p
    · rw [if_pos hk] at heq
      right
      rw [← heq]
    · rw [if_neg hk] at heq
      left
      rw [← heq]
      exact hkv0
  · rcases List.mem_append.mp h with h2 | h2
    · exact Or.inl h2
    · right
      rw [List.mem_singleton] at h2
      rw [h2]

theorem ingest_inv (m : AggMap) (b : String)
    (h : ∀ kv ∈ m, String.mk (pyStrip kv.2.category.data) = SOCIAL_CATEGORY) :
    ∀ kv ∈ ingest m b,
      String.mk (pyStrip kv.2.category.data) = SOCIAL_CATEGORY := by
  intro kv hkv
  unfold ingest at hkv
  cases hpb : parse_project_block b with
  | none =>
    rw [hpb] at hkv
    exact h kv hkv
  | some pr =>
    rw [hpb] at hkv
    have hkv2 : kv ∈ (if String.mk (pyStrip pr.category.data) = SOCIAL_CATEGORY
        then upsert m pr else m) := hkv
    by_cases hcat : String.mk (pyStrip pr.category.data) = SOCIAL_CATEGORY
    · rw [if_pos hcat] at hkv2
      rcases upsert_mem_cases m pr kv hkv2 with h2 | h2
      · exact h kv h2
      · rw [h2]
        exact hcat
    · rw [if_neg hcat] at hkv2
      exact h kv hkv2

theorem processBlocks_inv (bs : List String) : ∀ m : AggMap,
    (∀ kv ∈ m, String.mk (pyStrip kv.2.category.data) = SOCIAL_CATEGORY) →
    ∀ kv ∈ processBlocks m bs,
      String.mk (pyStrip kv.2.category.data) = SOCIAL_CATEGORY := by
  induction bs with
  | nil =>
    intro m h
    exact h
  | cons b rest ih =>
    intro m h
    exact ih (ingest m b) (ingest_inv m b h)

/-- C10: at every point of the traversal loop — from any state whose
aggregation map already satisfies it, hence from the empty initial map,
and in the final output — every stored record's stripped category equals
`SOCIAL_CATEGORY`; records of any other category are never upserted. -/
theorem c10_category_invariant (inputs : Nat → IterInput) (st : LoopState)
    (i fuel : Nat) (kv : DKey × Project)
    (hinv : ∀ kv2 ∈ st.projects,
      String.mk (pyStrip kv2.2.category.data) = SOCIAL_CATEGORY)
    (hmem : kv ∈ (loopAux inputs st i fuel).1) :
    String.mk (pyStrip kv.2.category.data) = SOCIAL_CATEGORY := by
  induction fuel generalizing st i with
  | zero => exact hinv kv hmem
  | succ n ih =>
    simp only [loopAux] at hmem
    cases hstep : step (inputs i) st with
    | halt r m =>
      rw [hstep] at hmem
      rw [step_halt_map _ _ _ _ hstep] at hmem
      exact processBlocks_inv _ _ hinv kv hmem
    | next st2 =>
      rw [hstep] at hmem
      obtain ⟨_, _, hp⟩ := step_next _ _ _ hstep
      exact ih st2 (i + 1)
        (fun kv2 hkv2 => processBlocks_inv _ _ hinv kv2 (hp ▸ hkv2)) hmem

/-- C10 witness: a concrete one-page run stores `alphaProject`, whose
stripped category is the Social one. -/
theorem c10_witness :
    String.mk (pyStrip alphaProject.category.data) = SOCIAL_CATEGORY :=
  c10_category_invariant onePageInputs initState 0 1
    (dedupKey alphaProject, alphaProject)
    (fun kv2 h => absurd h (List.not_mem_nil kv2))
    (by decide)

theorem insertLe_perm {α : Type} (le : α → α → Bool) (a : α) (l : List α) :
    (insertLe le a l).Perm (a :: l) := by
  induction l with
  | nil => exact List.Perm.refl _
  | cons b bs ih =>
    rw [insertLe]
    split
    · exact List.Perm.refl _
    · exact (List.Perm.cons b ih).trans (List.Perm.swap a b bs)

theorem isort_perm {α : Type} (le : α → α → Bool) (l : List α) :
    (isort le l).Perm l := by
  induction l with
  | nil => exact List.Perm.refl _
  | cons a rest ih =>
    rw [isort]
    exact (insertLe_perm le a (isort le rest)).trans (List.Perm.cons a ih)

theorem insertLe_pairwise {α : Type} (le : α → α → Bool)
    (htot : ∀ x y, le x y = true ∨ le y x = true)
    (htrans : ∀ x y z, le x y = true → le y z = true → le x z = true)
    (a : α) (l : List α) (hl : l.Pairwise (fun x y => le x y = true)) :
    (insertLe le a l).Pairwise (fun x y => le x y = true) := by
  induction l with
  | nil => simp [insertLe]
  | cons b bs ih =>
    rw [insertLe]
    rw [List.pairwise_cons] at hl
    obtain ⟨hb, hbs⟩ := hl
    split
    · next hab =>
      rw [List.pairwise_cons]
      refine ⟨?_, List.pairwise_cons.mpr ⟨hb, hbs⟩⟩
      intro x hx
      rcases List.mem_cons.mp hx with rfl | hx2
      · exact hab
      · exact htrans a b x hab (hb x hx2)
    · next hab =>
      have hba : le b a = true := by
        rcases htot a b with h | h
        · exact absurd h hab
        · exact h
      rw [List.pairwise_cons]
      refine ⟨?_, ih hbs⟩
      intro x hx
      have hx2 := (insertLe_perm le a bs).mem_iff.mp hx
      rcases List.mem_cons.mp hx2 with rfl | hx3
      · exact hba
      · exact hb x hx3

theorem isort_pairwise {α : Type} (le : α → α → Bool)
    (htot : ∀ x y, le x y = true ∨ le y x = true)
    (htrans : ∀ x y z, le x y = true → le y z = true → le x z = true)
    (l : List α) :
    (isort le l).Pairwise (fun x y => le x y = true) := by
  induction l with
  | nil => simp [isort]
  | cons a rest ih =>
    rw [isort]
    exact insertLe_pairwise le htot htrans a _ ih

theorem addToSections_keys (secs : List (String × List Project)) (p : Project) :
    (addToSections secs p).map Prod.fst =
      if secs.any (fun kv => decide (kv.1 = p.project_type)) then
        secs.map Prod.fst
      else secs.map Prod.fst ++ [p.project_type] := by
  unfold addToSections
  split
  · rw [List.map_map]
    apply List.map_congr_left
    intro kv _
    simp only [Function.comp]
    split <;> rfl
  · rw [List.map_append]
    rfl

theorem addToSections_nodup (secs : List (String × List Project)) (p : Project)
    (hnd : (secs.map Prod.fst).Nodup) :
    ((addToSections secs p).map Prod.fst).Nodup := by
  rw [addToSections_keys]
  split
  · exact hnd
  · next h =>
    have hnot : p.project_type ∉ secs.map Prod.fst := by
      intro hin
      obtain ⟨kv, hkv, hfst⟩ := List.mem_map.mp hin
      exact h (List.any_eq_true.mpr ⟨kv, hkv, decide_eq_true hfst⟩)
    simp [List.nodup_append, hnd, hnot]

theorem addToSections_types (secs : List (String × List Project)) (p : Project)
    (h : ∀ kv ∈ secs, ∀ q ∈ kv.2, q.project_type = kv.1) :
    ∀ kv ∈ addToSections secs p, ∀ q ∈ kv.2, q.project_type = kv.1 := by
  unfold addToSections
  split
  · intro kv hkv
    obtain ⟨kv0, hkv0, heq⟩ := List.mem_map.mp hkv
    by_cases hk : kv0.1 = p.project_type
    · rw [if_pos hk] at heq
      rw [← heq]
      intro q hq
      rcases List.mem_append.mp hq with hq2 | hq2
      · exact h kv0 hkv0 q hq2
      · rw [List.mem_singleton] at hq2
        subst hq2
        exact hk.symm
    · rw [if_neg hk] at heq
      rw [← heq]
      exact h kv0 hkv0
  · intro kv hkv
    rcases List.mem_append.mp hkv with h2 | h2
    · exact h kv h2
    · rw [List.mem_singleton] at h2
      subst h2
      intro q hq
      rw [List.mem_singleton] at hq
      subst hq
      rfl

theorem foldl_sections_nodup (ps : List Project) : ∀ secs,
    (secs.map Prod.fst).Nodup →
    ((ps.foldl addToSections secs).map Prod.fst).Nodup := by
  induction ps with
  | nil => intro secs h; exact h
  | cons p rest ih => intro secs h; exact ih _ (addToSections_nodup secs p h)

theorem foldl_sections_types (ps : List Project) : ∀ secs,
    (∀ kv ∈ secs, ∀ q ∈ kv.2, q.project_type = kv.1) →
    ∀ kv ∈ ps.foldl addToSections secs, ∀ q ∈ kv.2, q.project_type = kv.1 := by
  induction ps with
  | nil => intro secs h; exact h
  | cons p rest ih => intro secs h; exact ih _ (addToSections_types secs p h)

theorem join_map_replace (secs : List (String × List Project)) (p : Project) :
    ((secs.map Prod.fst).Nodup) →
    (secs.any (fun kv => decide (kv.1 = p.project_type)) = true) →
    ((secs.map (fun kv =>
        if kv.1 = p.project_type then (kv.1, kv.2 ++ [p]) else kv)).map
      Prod.snd).flatten.Perm ((secs.map Prod.snd).flatten ++ [p]) := by
  induction secs with
  | nil => intro _ hany; simp at hany
  | cons kv rest ih =>
    intro hnd hany
    simp only [List.map_cons, List.nodup_cons] at hnd
    obtain ⟨hnotin, hnd2⟩ := hnd
    simp only [List.map_cons, List.flatten_cons]
    by_cases hk : kv.1 = p.project_type
    · rw [if_pos hk]
      have hrest : rest.map (fun kv =>
          if kv.1 = p.project_type then (kv.1, kv.2 ++ [p]) else kv) = rest := by
        conv_rhs => rw [← List.map_id rest]
        apply List.map_congr_left
        intro kv2 hkv2
        have hne : ¬(kv2.1 = p.project_type) := by
          intro he
          exact hnotin (by rw [hk, ← he]; exact List.mem_map_of_mem Prod.fst hkv2)
        simp [hne]
      rw [hrest]
      rw [List.append_assoc, List.append_assoc]
      exact List.Perm.append_left kv.2 List.perm_append_comm
    · rw [if_neg hk]
      have hany2 : rest.any (fun kv => decide (kv.1 = p.project_type)) = true := by
        rw [List.any_cons] at hany
        simpa [hk] using hany
      rw [List.append_assoc]
      exact List.Perm.append_left kv.2 (ih hnd2 hany2)

theorem join_foldl_sections (ps : List Project) : ∀ secs,
    (secs.map Prod.fst).Nodup →
    ((ps.foldl addToSections secs).map Prod.snd).flatten.Perm
      ((secs.map Prod.snd).flatten ++ ps) := by
  induction ps with
  | nil =>
    intro secs hnd
    rw [List.foldl_nil, List.append_nil]
  | cons p rest ih =>
    intro secs hnd
    rw [List.foldl_cons]
    have step1 : ((addToSections secs p).map Prod.snd).flatten.Perm
        ((secs.map Prod.snd).flatten ++ [p]) := by
      unfold addToSections
      split
      · next hany => exact join_map_replace secs p hnd hany
      · rw [List.map_append, List.flatten_append]
        exact List.Perm.refl _
    have ih2 := ih (addToSections secs p) (addToSections_nodup secs p hnd)
    refine ih2.trans ?_
    refine (List.Perm.append_right rest step1).trans ?_
    rw [List.append_assoc]
    exact List.Perm.refl _

theorem join_map_snd_perm (l1 l2 : List (String × List Project))
    (h : l1.Perm l2) : (l1.map Prod.snd).flatten.Perm (l2.map Prod.snd).flatten := by
  induction h with
  | nil => exact List.Perm.refl _
  | cons x h ih =>
    simp only [List.map_cons, List.flatten_cons]
    exact List.Perm.append_left x.2 ih
  | swap x y l =>
    simp only [List.map_cons, List.flatten_cons]
    exact List.perm_append_comm_assoc y.2 x.2 ((l.map Prod.snd).flatten)
  | trans h1 h2 ih1 ih2 => exact ih1.trans ih2

theorem join_map_sortEach (l : List (String × List Project)) :
    ((l.map (fun kv => (kv.1, isort standLe kv.2))).map Prod.snd).flatten.Perm
      ((l.map Prod.snd).flatten) := by
  induction l with
  | nil => exact List.Perm.refl _
  | cons kv rest ih =>
    simp only [List.map_cons, List.flatten_cons]
    exact List.Perm.append (isort_perm standLe kv.2) ih

theorem buildSections_keys_perm (ps : List Project) :
    ((buildSections ps).map Prod.fst).Perm
      ((ps.foldl addToSections []).map Prod.fst) := by
  unfold buildSections
  refine ((isort_perm secLe _).map Prod.fst).trans ?_
  rw [List.map_map]
  have he : (Prod.fst ∘ fun kv : String × List Project =>
      (kv.1, isort standLe kv.2)) = Prod.fst := rfl
  rw [he]

/-- C5: in the grouped final view, sections are strictly ascending by
projectType key under the code-point (case-sensitive ordinal) string
order; within every section the records are non-decreasing by stand
number; and the sections partition the aggregated records: their
concatenation is a permutation of the input list and every record lies
in the section keyed by its own projectType. -/
theorem c5_grouped_view (ps : List Project) :
    ((buildSections ps).map Prod.fst).Pairwise (fun a b => a < b) ∧
    (∀ kv ∈ buildSections ps,
      kv.2.Pairwise (fun p q => p.stand_number ≤ q.stand_number)) ∧
    ((buildSections ps).map Prod.snd).flatten.Perm ps ∧
    (∀ kv ∈ buildSections ps, ∀ q ∈ kv.2, q.project_type = kv.1) := by
  have hsecle : (buildSections ps).Pairwise (fun a b => secLe a b = true) :=
    isort_pairwise secLe
      (fun x y => by
        simp only [secLe, decide_eq_true_eq]
        exact le_total x.1 y.1)
      (fun x y z hxy hyz => by
        simp only [secLe, decide_eq_true_eq] at hxy hyz ⊢
        exact le_trans hxy hyz)
      _
  have hraw_nodup : ((ps.foldl addToSections []).map Prod.fst).Nodup :=
    foldl_sections_nodup ps [] (by simp)
  have hkeys_nodup : ((buildSections ps).map Prod.fst).Nodup :=
    (buildSections_keys_perm ps).nodup_iff.mpr hraw_nodup
  refine ⟨?_, ?_, ?_, ?_⟩
  · have h1 : ((buildSections ps).map Prod.fst).Pairwise (fun a b => a ≤ b) := by
      rw [List.pairwise_map]
      exact hsecle.imp (fun h => by
        simp only [secLe, decide_eq_true_eq] at h
        exact h)
    have h2 : ((buildSections ps).map Prod.fst).Pairwise (fun a b => a ≠ b) :=
      hkeys_nodup
    exact (h1.and h2).imp (fun h => lt_of_le_of_ne h.1 h.2)
  · intro kv hkv
    have hkv2 : kv ∈ (ps.foldl addToSections []).map
        (fun kv => (kv.1, isort standLe kv.2)) :=
      (isort_perm secLe _).mem_iff.mp hkv
    obtain ⟨kv0, hkv0, heq⟩ := List.mem_map.mp hkv2
    rw [← heq]
    exact (isort_pairwise standLe
      (fun x y => by
        simp only [standLe, decide_eq_true_eq]
        exact le_total _ _)
      (fun x y z hxy hyz => by
        simp only [standLe, decide_eq_true_eq] at hxy hyz ⊢
        exact le_trans hxy hyz)
      kv0.2).imp (fun h => by
        simp only [standLe, decide_eq_true_eq] at h
        exact h)
  · have h1 : ((buildSections ps).map Prod.snd).flatten.Perm
        (((ps.foldl addToSections []).map
          (fun kv => (kv.1, isort standLe kv.2))).map Prod.snd).flatten :=
      join_map_snd_perm _ _ (isort_perm secLe _)
    have h2 := join_map_sortEach (ps.foldl addToSections [])
    have h3 := join_foldl_sections ps [] (by simp)
    refine h1.trans (h2.trans ?_)
    simpa using h3
  · intro kv hkv
    have hkv2 : kv ∈ (ps.foldl addToSections []).map
        (fun kv => (kv.1, isort standLe kv.2)) :=
      (isort_perm secLe _).mem_iff.mp hkv
    obtain ⟨kv0, hkv0, heq⟩ := List.mem_map.mp hkv2
    intro q hq
    rw [← heq] at hq ⊢
    have hq2 : q ∈ kv0.2 := (isort_perm standLe kv0.2).mem_iff.mp hq
    exact foldl_sections_types ps [] (by simp) kv0 hkv0 q hq2

end Scraper
